import Mathlib

/-!
Verification of the `pike` macro library (src/src/lib.rs).

The library is three Rust macros (`pike!`, `pike_res!`, `pike_opt!`) that
rewrite a linear pipe expression `head |> s1 |> ... |> sn` into a block of
sequential rebindings of an accumulator `ret`, with each stage dispatched
through `__internal_pike_fun!`.  We give a shallow embedding of the code the
macros expand to:

* `Val β` is the runtime value domain.  Stage callees are opaque to the
  macros, so base values are abstract (`Val.base`), with explicit
  constructors for the outcome shapes the expansions pattern-match on
  (`Ok`/`Err` in `pike_res!`, `Some`/`None` in `pike_opt!`) and for
  references (`&ret`).
* `Stage β` has one constructor per arm of `__internal_pike_fun!`, and
  `pikeFun` is that macro's denotation: the value the arm's expansion
  evaluates to, given the accumulated value `ret`.
* `pike_go`, `pike_res_go`, `pike_opt_go` mirror the three expansion
  schemata: the chain of `let ret = ...;` rebindings (for `pike_res!` and
  `pike_opt!`, each rebinding is guarded by the `match ret` from the
  expansion).  The macros require at least one `|> stage` group, so theorems
  that need it carry a nonemptiness hypothesis.
* `pikeT_go`, `pike_resT_go`, `pike_optT_go` are the same control structure
  instrumented with a trace: the list of stage indices whose stage
  expression is actually evaluated, in evaluation order.  Lemmas link their
  value component back to the pure runners.

Heads and stage arguments are embedded as values (the macros splice them in
as token trees; we consider pure argument expressions).
-/

namespace PikeLib

/-- Runtime values.  `base` is an opaque payload; `vref` models `&v`;
`ok`/`err` model `Ok(v)`/`Err(e)`; `vsome`/`vnone` model `Some(v)`/`None`. -/
inductive Val (β : Type) where
  | base : β → Val β
  | vref : Val β → Val β
  | ok : Val β → Val β
  | err : Val β → Val β
  | vsome : Val β → Val β
  | vnone : Val β
deriving DecidableEq, Repr

/-- One pipeline stage, one constructor per arm of `__internal_pike_fun!`
(src/src/lib.rs lines 123-145):
`ref` is the `&` arm; `cast` is the `(as T)` arm, with `c` the meaning of
`as T` on values; `callArgs f args` is the parenthesized partial
application `(f(a2,...,ak))`, where `f` consumes its full argument list;
`mcallArgs m args` is the argument-taking macro stage `(m!(a2,...,ak))`,
with `m` the meaning of the macro on its argument list; `closure` is the
parenthesized closure arm `(f)`; `path` is the plain/qualified function
path arm `f` or `f::g`; `mcallBang m` is the trailing-bang macro stage
`m!` accepted by `pike!`. -/
inductive Stage (β : Type) where
  | ref : Stage β
  | cast : (Val β → Val β) → Stage β
  | callArgs : (List (Val β) → Val β) → List (Val β) → Stage β
  | mcallArgs : (List (Val β) → Val β) → List (Val β) → Stage β
  | closure : (Val β → Val β) → Stage β
  | path : (Val β → Val β) → Stage β
  | mcallBang : (Val β → Val β) → Stage β

/-- Denotation of `__internal_pike_fun!(stage, ret)`: the value the selected
arm's expansion evaluates to.  `&` gives `&ret`; `(as T)` gives `ret as T`;
`(f(a2,...,ak))` expands to `f(ret, a2, ..., ak)` (accumulated value first,
then the listed arguments in order); `(m!(a2,...,ak))` expands to
`m!(ret, a2, ..., ak)`; `(f)` and `f` expand to `f(ret)`; `m!` gives
`m!(ret)`. -/
def pikeFun : Stage β → Val β → Val β
  | Stage.ref, ret => Val.vref ret
  | Stage.cast c, ret => c ret
  | Stage.callArgs f args, ret => f (ret :: args)
  | Stage.mcallArgs m args, ret => m (ret :: args)
  | Stage.closure f, ret => f ret
  | Stage.path f, ret => f ret
  | Stage.mcallBang m, ret => m ret

/-- Whether the expansion of the stage's arm is a call (of a function,
closure or macro) rather than a call-free expression: the `&` arm expands
to `&ret` and the `(as T)` arm to `ret as T`, neither of which contains a
call; every other arm expands to an invocation `...(...)`. -/
def stageHasCall : Stage β → Bool
  | Stage.ref => false
  | Stage.cast _ => false
  | Stage.callArgs _ _ => true
  | Stage.mcallArgs _ _ => true
  | Stage.closure _ => true
  | Stage.path _ => true
  | Stage.mcallBang _ => true

/-- The stage forms that are plain function paths, qualified paths,
parenthesized closures, or parenthesized partial applications. -/
def isFunForm : Stage β → Bool
  | Stage.path _ => true
  | Stage.closure _ => true
  | Stage.callArgs _ _ => true
  | _ => false

/-- The expansion of `pike!` after `let ret = head;`: one rebinding
`let ret = __internal_pike_fun!(stage, ret);` per stage, then `ret`. -/
def pike_go : List (Stage β) → Val β → Val β
  | [], ret => ret
  | s :: rest, ret => pike_go rest (pikeFun s ret)

/-- `pike!(head |> s1 |> ... |> sn)` (src/src/lib.rs lines 68-78). -/
def pike (head : Val β) (stages : List (Stage β)) : Val β :=
  pike_go stages head

/-- Traced `pike_go`: also returns the indices (from `i`) of the stages
whose stage expression is evaluated, in evaluation order. -/
def pikeT_go : List (Stage β) → Nat → Val β → Val β × List Nat
  | [], _, ret => (ret, [])
  | s :: rest, i, ret =>
      let r := pikeT_go rest (i + 1) (pikeFun s ret)
      (r.1, i :: r.2)

/-- Traced `pike`. -/
def pikeT (head : Val β) (stages : List (Stage β)) : Val β × List Nat :=
  pikeT_go stages 0 head

/-- One guarded rebinding from the `pike_res!` expansion:
`match ret { Ok(x) => __internal_pike_fun!(stage, x), _ => ret }`. -/
def resStep (s : Stage β) (ret : Val β) : Val β :=
  match ret with
  | Val.ok x => pikeFun s x
  | _ => ret

/-- The expansion of `pike_res!` after `let ret = Ok(head);`. -/
def pike_res_go : List (Stage β) → Val β → Val β
  | [], ret => ret
  | s :: rest, ret => pike_res_go rest (resStep s ret)

/-- `pike_res!(head |> s1 |> ... |> sn)` (src/src/lib.rs lines 85-98):
the head is wrapped in `Ok` and each stage runs only while the
accumulator is an `Ok`. -/
def pike_res (head : Val β) (stages : List (Stage β)) : Val β :=
  pike_res_go stages (Val.ok head)

/-- Traced `pike_res_go`: a stage index is recorded exactly when the
`Ok(x)` arm is taken, i.e. when the stage expression is evaluated. -/
def pike_resT_go : List (Stage β) → Nat → Val β → Val β × List Nat
  | [], _, ret => (ret, [])
  | s :: rest, i, ret =>
      match ret with
      | Val.ok x =>
          let r := pike_resT_go rest (i + 1) (pikeFun s x)
          (r.1, i :: r.2)
      | _ => pike_resT_go rest (i + 1) ret

/-- Traced `pike_res`. -/
def pike_resT (head : Val β) (stages : List (Stage β)) : Val β × List Nat :=
  pike_resT_go stages 0 (Val.ok head)

/-- One guarded rebinding from the `pike_opt!` expansion:
`match ret { None => __internal_pike_fun!(stage, head), _ => ret }`.
Each stage is applied to the original head, not to the accumulator. -/
def optStep (head : Val β) (s : Stage β) (ret : Val β) : Val β :=
  match ret with
  | Val.vnone => pikeFun s head
  | _ => ret

/-- The expansion of `pike_opt!` after `let ret = None;`. -/
def pike_opt_go (head : Val β) : List (Stage β) → Val β → Val β
  | [], ret => ret
  | s :: rest, ret => pike_opt_go head rest (optStep head s ret)

/-- `pike_opt!(head |> s1 |> ... |> sn)` (src/src/lib.rs lines 106-119). -/
def pike_opt (head : Val β) (stages : List (Stage β)) : Val β :=
  pike_opt_go head stages Val.vnone

/-- Traced `pike_opt_go`: a stage index is recorded exactly when the
`None` arm is taken, i.e. when the stage expression is evaluated. -/
def pike_optT_go : Val β → List (Stage β) → Nat → Val β → Val β × List Nat
  | _, [], _, ret => (ret, [])
  | head, s :: rest, i, ret =>
      match ret with
      | Val.vnone =>
          let r := pike_optT_go head rest (i + 1) (pikeFun s head)
          (r.1, i :: r.2)
      | _ => pike_optT_go head rest (i + 1) ret

/-- Traced `pike_opt`. -/
def pike_optT (head : Val β) (stages : List (Stage β)) : Val β × List Nat :=
  pike_optT_go head stages 0 Val.vnone

/-- Spec-side helper for the hand-written nesting: `nestedRev h [gn, ..., g1]`
is `gn(g(n-1)(...(g1(h))...))`, peeling the outermost call first. -/
def nestedRev (head : Val β) : List (Val β → Val β) → Val β
  | [] => head
  | f :: fs => f (nestedRev head fs)

/-- Spec-side definition, following the claim's words: the hand-written
nested call `fn(...(f2(f1(h)))...)` for stage functions listed first to
last, the last one outermost. -/
def nestedCalls (head : Val β) (fs : List (Val β → Val β)) : Val β :=
  nestedRev head fs.reverse

/-- Spec-side reading of a stage as a plain function of the accumulated
value: a path, closure or bang-macro stage is its callee; a partial
application or macro-with-arguments stage substitutes the accumulated
value as the first argument followed by the listed arguments; `&` takes a
reference; `(as T)` casts. -/
def specStageFun : Stage β → Val β → Val β
  | Stage.ref => Val.vref
  | Stage.cast c => c
  | Stage.callArgs f args => fun ret => f (ret :: args)
  | Stage.mcallArgs m args => fun ret => m (ret :: args)
  | Stage.closure f => f
  | Stage.path f => f
  | Stage.mcallBang m => m

/-- An all-`Ok` run: `chainOk x stages v` says that starting from `x` every
stage returns `Ok` of the next accumulated value, ending at `v`. -/
def chainOk (x : Val β) : List (Stage β) → Val β → Prop
  | [], v => v = x
  | s :: rest, v => ∃ w, pikeFun s x = Val.ok w ∧ chainOk w rest v

/-- Spec-side helper: the first value of the list that is not `None`, or
`None` if there is none. -/
def firstNonNone : List (Val β) → Val β
  | [] => Val.vnone
  | v :: rest =>
      match v with
      | Val.vnone => firstNonNone rest
      | _ => v

/-- A raw `|>` stage group as seen by the macro matcher: a token tree that
either matches one of the arms of `__internal_pike_fun!` (`good`) or
matches none of the accepted stage forms (`bad`). -/
inductive RawStage (β : Type) where
  | good : Stage β → RawStage β
  | bad : RawStage β

/-- Arm-by-arm matching of the stage groups against `__internal_pike_fun!`:
a `bad` group matches no arm, which `macro_rules` reports as a compile-time
error, modelled as `none`. -/
def matchStages : List (RawStage β) → Option (List (Stage β))
  | [] => some []
  | RawStage.good s :: rest => (matchStages rest).map (fun ss => s :: ss)
  | RawStage.bad :: _ => none

/-- The macro front end: the outer matcher requires at least one `|> stage`
group (the `+` repetition in `pike!`, `pike_res!` and `pike_opt!`), and the
expansion then requires each group to match an arm of
`__internal_pike_fun!`.  `none` models compile-time rejection. -/
def pikeExpand : List (RawStage β) → Option (List (Stage β))
  | [] => none
  | raws => matchStages raws

/-! ### Helper lemmas -/

theorem pikeFun_eq_spec (s : Stage β) (ret : Val β) :
    pikeFun s ret = specStageFun s ret := by
  cases s <;> rfl

theorem pikeT_go_fst (stages : List (Stage β)) (i : Nat) (ret : Val β) :
    (pikeT_go stages i ret).1 = pike_go stages ret := by
  induction stages generalizing i ret with
  | nil => rfl
  | cons s rest ih => simpa [pikeT_go, pike_go] using ih (i + 1) (pikeFun s ret)

theorem pikeT_go_trace (stages : List (Stage β)) (i : Nat) (ret : Val β) :
    (pikeT_go stages i ret).2 = List.range' i stages.length := by
  induction stages generalizing i ret with
  | nil => rfl
  | cons s rest ih =>
      simpa [pikeT_go, List.range'] using ih (i + 1) (pikeFun s ret)

theorem nestedRev_append (head : Val β) (fs : List (Val β → Val β))
    (f : Val β → Val β) : nestedRev head (fs ++ [f]) = nestedRev (f head) fs := by
  induction fs with
  | nil => rfl
  | cons g gs ih => simp [nestedRev, ih]

theorem pike_go_eq_nested (stages : List (Stage β)) (ret : Val β) :
    pike_go stages ret = nestedCalls ret (stages.map specStageFun) := by
  induction stages generalizing ret with
  | nil => rfl
  | cons s rest ih =>
      calc pike_go (s :: rest) ret = pike_go rest (pikeFun s ret) := rfl
        _ = nestedCalls (pikeFun s ret) (rest.map specStageFun) := ih _
        _ = nestedCalls ret ((s :: rest).map specStageFun) := by
              simp [nestedCalls, nestedRev_append, pikeFun_eq_spec]

theorem pike_go_append (xs ys : List (Stage β)) (ret : Val β) :
    pike_go (xs ++ ys) ret = pike_go ys (pike_go xs ret) := by
  induction xs generalizing ret with
  | nil => rfl
  | cons s rest ih => simp [pike_go, ih]

/-! ### Claims -/

theorem resStep_not_ok (s : Stage β) (ret : Val β) (h : ∀ x, ret ≠ Val.ok x) :
    resStep s ret = ret := by
  cases ret <;> first | rfl | exact absurd rfl (h _)

theorem pike_res_go_stall (stages : List (Stage β)) (ret : Val β)
    (h : ∀ x, ret ≠ Val.ok x) : pike_res_go stages ret = ret := by
  induction stages with
  | nil => rfl
  | cons s rest ih => simp [pike_res_go, resStep_not_ok s ret h, ih]

theorem pike_resT_go_stall (stages : List (Stage β)) (i : Nat) (ret : Val β)
    (h : ∀ x, ret ≠ Val.ok x) : pike_resT_go stages i ret = (ret, []) := by
  induction stages generalizing i with
  | nil => rfl
  | cons s rest ih =>
      cases ret <;> first
        | exact absurd rfl (h _)
        | simpa [pike_resT_go] using ih (i + 1)

theorem pike_resT_go_fst (stages : List (Stage β)) (i : Nat) (ret : Val β) :
    (pike_resT_go stages i ret).1 = pike_res_go stages ret := by
  induction stages generalizing i ret with
  | nil => rfl
  | cons s rest ih =>
      cases ret <;> simpa [pike_resT_go, pike_res_go, resStep] using ih (i + 1) _

theorem pike_res_go_chainOk (stages : List (Stage β)) (x v : Val β)
    (h : chainOk x stages v) : pike_res_go stages (Val.ok x) = Val.ok v := by
  induction stages generalizing x with
  | nil => rw [h]; rfl
  | cons s rest ih =>
      obtain ⟨w, hw, hc⟩ := h
      show pike_res_go rest (resStep s (Val.ok x)) = Val.ok v
      rw [show resStep s (Val.ok x) = pikeFun s x from rfl, hw]
      exact ih w hc

theorem pike_resT_go_first_err (pre : List (Stage β)) (s : Stage β)
    (post : List (Stage β)) (i : Nat) (x v e : Val β)
    (hok : chainOk x pre v) (herr : pikeFun s v = Val.err e) :
    pike_resT_go (pre ++ s :: post) i (Val.ok x)
      = (Val.err e, List.range' i (pre.length + 1)) := by
  induction pre generalizing i x with
  | nil =>
      rw [hok] at herr
      simp [pike_resT_go, herr,
        pike_resT_go_stall post (i + 1) (Val.err e) (by intro y h; cases h),
        List.range']
  | cons s0 rest ih =>
      obtain ⟨w, hw, hc⟩ := hok
      simp [pike_resT_go, hw, ih (i + 1) w hc, List.range']

theorem pike_res_go_err_source (stages : List (Stage β)) (ret e : Val β)
    (h : pike_res_go stages ret = Val.err e) :
    (∃ s ∈ stages, ∃ x, pikeFun s x = Val.err e) ∨ ret = Val.err e := by
  induction stages generalizing ret with
  | nil => exact Or.inr h
  | cons s rest ih =>
      rcases ih (resStep s ret) h with h1 | h2
      · obtain ⟨s0, hs0, x, hx⟩ := h1
        exact Or.inl ⟨s0, List.mem_cons_of_mem s hs0, x, hx⟩
      · cases ret with
        | ok x => exact Or.inl ⟨s, List.mem_cons_self s rest, x, h2⟩
        | err e0 => exact Or.inr (by simpa [resStep] using h2)
        | base b => exact absurd h2 (by simp [resStep])
        | vref y => exact absurd h2 (by simp [resStep])
        | vsome y => exact absurd h2 (by simp [resStep])
        | vnone => exact absurd h2 (by simp [resStep])

/-- C1: for a nonempty pipeline of function-application stages (plain
paths, qualified paths, parenthesized closures, parenthesized partial
applications), `pike!(h |> f1 |> ... |> fn)` evaluates to the hand-written
nested call `fn(...(f2(f1(h)))...)`, and each stage expression is
evaluated exactly once in left-to-right order (the evaluation trace is
exactly the index sequence 0, 1, ..., n-1). -/
theorem pike_eq_nested_calls (head : Val β) (stages : List (Stage β))
    (_hne : stages ≠ []) (_hforms : ∀ s ∈ stages, isFunForm s = true) :
    pike head stages = nestedCalls head (stages.map specStageFun) ∧
      (pikeT head stages).2 = List.range stages.length := by
  refine ⟨pike_go_eq_nested stages head, ?_⟩
  rw [pikeT, pikeT_go_trace, List.range_eq_range']

/-- Witness for C1 on a concrete two-stage pipeline. -/
theorem pike_eq_nested_calls_witness :
    pike (Val.base 0) [Stage.closure Val.vsome, Stage.path Val.vref] =
        nestedCalls (Val.base 0)
          ([Stage.closure Val.vsome, Stage.path Val.vref].map specStageFun) ∧
      (pikeT (Val.base (0 : Nat))
          [Stage.closure Val.vsome, Stage.path Val.vref]).2 = List.range 2 :=
  pike_eq_nested_calls (Val.base 0) [Stage.closure Val.vsome, Stage.path Val.vref]
    (by simp) (by simp [isFunForm])

/-- C4: a parenthesized partial-application stage `(f(a2, ..., ak))`
rewrites the accumulated value `ret` to `f(ret, a2, ..., ak)` — the
accumulated value becomes the first argument, followed by the listed
arguments in order — while a plain path stage or a parenthesized closure
stage passes the accumulated value as the sole argument. -/
theorem stage_arg_substitution (head : Val β) (pre post : List (Stage β))
    (f : List (Val β) → Val β) (args : List (Val β)) (g : Val β → Val β) :
    pike head (pre ++ Stage.callArgs f args :: post)
        = pike (f (pike head pre :: args)) post ∧
      pike head (pre ++ Stage.path g :: post) = pike (g (pike head pre)) post ∧
      pike head (pre ++ Stage.closure g :: post) = pike (g (pike head pre)) post := by
  refine ⟨?_, ?_, ?_⟩ <;> simp [pike, pike_go_append, pike_go, pikeFun]

/-- C7: a type-cast stage `(as T)` rewrites the accumulated value to
`ret as T` and a reference stage `&` rewrites it to `&ret`; in both cases
the accumulated value is the operand and the arm's expansion contains no
function call. -/
theorem cast_ref_stage_semantics (head : Val β) (pre post : List (Stage β))
    (c : Val β → Val β) :
    pike head (pre ++ Stage.cast c :: post) = pike (c (pike head pre)) post ∧
      pike head (pre ++ Stage.ref :: post)
        = pike (Val.vref (pike head pre)) post ∧
      stageHasCall (Stage.cast c) = false ∧
      stageHasCall (Stage.ref : Stage β) = false := by
  refine ⟨?_, ?_, rfl, rfl⟩ <;> simp [pike, pike_go_append, pike_go, pikeFun]

theorem pike_res_go_ok_refines (stagesR stagesP : List (Stage β))
    (hRP : List.Forall₂
      (fun sR sP => ∀ x, pikeFun sR x = Val.ok (pikeFun sP x)) stagesR stagesP) :
    ∀ x, pike_res_go stagesR (Val.ok x) = Val.ok (pike_go stagesP x) := by
  induction hRP with
  | nil => intro x; rfl
  | @cons sR sP rR rP h1 h2 ih =>
      intro x
      show pike_res_go rR (resStep sR (Val.ok x)) = Val.ok (pike_go rP (pikeFun sP x))
      rw [show resStep sR (Val.ok x) = pikeFun sR x from rfl, h1 x]
      exact ih (pikeFun sP x)

/-- C2: in `pike_res!`, if the stages before `s` all return `Ok` (accumulating
`v` from head) and `s` returns `Err e` on `v`, the pipeline evaluates to that
exact `Err e`; its evaluation trace stops at `s` (indices `0..pre.length`
only, so no later stage expression is evaluated); and in general a
`pike_res!` pipeline evaluates to `Err e0` only if some stage produced
`Err e0`. -/
theorem pike_res_first_err (head v e : Val β) (pre post : List (Stage β))
    (s : Stage β) (hok : chainOk head pre v) (herr : pikeFun s v = Val.err e) :
    pike_res head (pre ++ s :: post) = Val.err e ∧
      (pike_resT head (pre ++ s :: post)).2 = List.range (pre.length + 1) ∧
      ∀ (stages : List (Stage β)) (h0 e0 : Val β),
        pike_res h0 stages = Val.err e0 →
          ∃ s0 ∈ stages, ∃ x, pikeFun s0 x = Val.err e0 := by
  have htr := pike_resT_go_first_err pre s post 0 head v e hok herr
  refine ⟨?_, ?_, ?_⟩
  · have := pike_resT_go_fst (pre ++ s :: post) 0 (Val.ok head)
    rw [htr] at this
    exact this.symm
  · rw [pike_resT, htr, List.range_eq_range']
  · intro stages h0 e0 hrun
    rcases pike_res_go_err_source stages (Val.ok h0) e0 hrun with h1 | h2
    · exact h1
    · cases h2

/-- Witness for C2: a concrete pipeline whose second stage fails. -/
theorem pike_res_first_err_witness :
    pike_res (Val.base 4) [Stage.closure Val.ok, Stage.closure Val.err,
        Stage.closure Val.ok] = Val.err (Val.base 4) ∧
      (pike_resT (Val.base (4 : Nat)) [Stage.closure Val.ok, Stage.closure Val.err,
        Stage.closure Val.ok]).2 = List.range 2 ∧
      ∀ (stages : List (Stage Nat)) (h0 e0 : Val Nat),
        pike_res h0 stages = Val.err e0 →
          ∃ s0 ∈ stages, ∃ x, pikeFun s0 x = Val.err e0 :=
  pike_res_first_err (Val.base 4) (Val.base 4) (Val.base 4)
    [Stage.closure Val.ok] [Stage.closure Val.ok] (Stage.closure Val.err)
    ⟨Val.base 4, rfl, rfl⟩ rfl

/-- C5: an all-`Ok` run of `pike_res!` yields `Ok` of the accumulated value,
and a `pike_res!` pipeline whose stages are `Ok`-wrapped versions of the
stages of a `pike!` pipeline yields exactly `Ok` of what `pike!` computes:
the two differ only in the final `Ok` wrapping. -/
theorem pike_res_all_ok (head v : Val β)
    (stages stagesR stagesP : List (Stage β))
    (hchain : chainOk head stages v)
    (hRP : List.Forall₂
      (fun sR sP => ∀ x, pikeFun sR x = Val.ok (pikeFun sP x)) stagesR stagesP) :
    pike_res head stages = Val.ok v ∧
      pike_res head stagesR = Val.ok (pike head stagesP) :=
  ⟨pike_res_go_chainOk stages head v hchain,
    pike_res_go_ok_refines stagesR stagesP hRP head⟩

/-- Witness for C5 on concrete one-stage pipelines. -/
theorem pike_res_all_ok_witness :
    pike_res (Val.base 1) [Stage.closure Val.ok] = Val.ok (Val.base 1) ∧
      pike_res (Val.base (1 : Nat)) [Stage.closure Val.ok]
        = Val.ok (pike (Val.base 1) [Stage.closure (fun x => x)]) :=
  pike_res_all_ok (Val.base 1) (Val.base 1) [Stage.closure Val.ok]
    [Stage.closure Val.ok] [Stage.closure (fun x => x)]
    ⟨Val.base 1, rfl, rfl⟩
    (List.Forall₂.cons (fun _ => rfl) List.Forall₂.nil)

/-- C10: `pike_res!` wraps the head in `Ok` before the chain starts, so the
first stage is always applied to the head value itself (the expansion
reduces to running the rest of the chain on the first stage's result), and
the first stage expression is always evaluated (index 0 heads the trace)
no matter what the head value is. -/
theorem pike_res_head_ok_wrapped (head : Val β) (s : Stage β)
    (rest : List (Stage β)) :
    pike_res head (s :: rest) = pike_res_go rest (pikeFun s head) ∧
      (pike_resT head (s :: rest)).2
        = 0 :: (pike_resT_go rest 1 (pikeFun s head)).2 :=
  ⟨rfl, rfl⟩

theorem optStep_not_none (head : Val β) (s : Stage β) (ret : Val β)
    (h : ret ≠ Val.vnone) : optStep head s ret = ret := by
  cases ret <;> first | rfl | exact absurd rfl h

theorem pike_opt_go_stall (head : Val β) (stages : List (Stage β)) (ret : Val β)
    (h : ret ≠ Val.vnone) : pike_opt_go head stages ret = ret := by
  induction stages with
  | nil => rfl
  | cons s rest ih => simp [pike_opt_go, optStep_not_none head s ret h, ih]

theorem pike_optT_go_stall (head : Val β) (stages : List (Stage β)) (i : Nat)
    (ret : Val β) (h : ret ≠ Val.vnone) :
    pike_optT_go head stages i ret = (ret, []) := by
  induction stages generalizing i with
  | nil => rfl
  | cons s rest ih =>
      cases ret <;> first
        | exact absurd rfl h
        | simpa [pike_optT_go] using ih (i + 1)

theorem pike_optT_go_fst (head : Val β) (stages : List (Stage β)) (i : Nat)
    (ret : Val β) : (pike_optT_go head stages i ret).1 = pike_opt_go head stages ret := by
  induction stages generalizing i ret with
  | nil => rfl
  | cons s rest ih =>
      cases ret <;> simpa [pike_optT_go, pike_opt_go, optStep] using ih (i + 1) _

theorem pike_optT_go_first_some (head v : Val β) (pre : List (Stage β))
    (s : Stage β) (post : List (Stage β)) (i : Nat)
    (hpre : ∀ t ∈ pre, pikeFun t head = Val.vnone)
    (hs : pikeFun s head = Val.vsome v) :
    pike_optT_go head (pre ++ s :: post) i Val.vnone
      = (Val.vsome v, List.range' i (pre.length + 1)) := by
  induction pre generalizing i with
  | nil =>
      simp [pike_optT_go, hs,
        pike_optT_go_stall head post (i + 1) (Val.vsome v) (by simp), List.range']
  | cons t rest ih =>
      have ht : pikeFun t head = Val.vnone := hpre t (List.mem_cons_self t rest)
      have ih2 := ih (i + 1) (fun u hu => hpre u (List.mem_cons_of_mem t hu))
      simp [pike_optT_go, ht, ih2, List.range']

theorem pike_opt_go_eq_firstNonNone (head : Val β) (stages : List (Stage β)) :
    pike_opt_go head stages Val.vnone
      = firstNonNone (stages.map (fun t => pikeFun t head)) := by
  induction stages with
  | nil => rfl
  | cons s rest ih =>
      show pike_opt_go head rest (pikeFun s head) = _
      cases hv : pikeFun s head with
      | vnone => simpa [hv, firstNonNone] using ih
      | base b => simp [hv, firstNonNone,
          pike_opt_go_stall head rest (Val.base b) (by simp)]
      | vref y => simp [hv, firstNonNone,
          pike_opt_go_stall head rest (Val.vref y) (by simp)]
      | ok y => simp [hv, firstNonNone,
          pike_opt_go_stall head rest (Val.ok y) (by simp)]
      | err y => simp [hv, firstNonNone,
          pike_opt_go_stall head rest (Val.err y) (by simp)]
      | vsome y => simp [hv, firstNonNone,
          pike_opt_go_stall head rest (Val.vsome y) (by simp)]

theorem firstNonNone_eq_none_iff (vs : List (Val β)) :
    firstNonNone vs = Val.vnone ↔ ∀ v ∈ vs, v = Val.vnone := by
  induction vs with
  | nil => simp [firstNonNone]
  | cons v rest ih => cases v <;> simp [firstNonNone, ih]

theorem pike_res_go_append (xs ys : List (Stage β)) (ret : Val β) :
    pike_res_go (xs ++ ys) ret = pike_res_go ys (pike_res_go xs ret) := by
  induction xs generalizing ret with
  | nil => rfl
  | cons s rest ih => simp [pike_res_go, ih]

theorem pike_resT_go_append_stall (xs ys : List (Stage β)) (i : Nat)
    (ret : Val β) (h : ∀ x, pike_res_go xs ret ≠ Val.ok x) :
    pike_resT_go (xs ++ ys) i ret = pike_resT_go xs i ret := by
  induction xs generalizing i ret with
  | nil => exact pike_resT_go_stall ys i ret h
  | cons s rest ih =>
      have h2 : ∀ x, pike_res_go rest (resStep s ret) ≠ Val.ok x := h
      cases ret <;> simp [pike_resT_go, ih (i + 1) _ (by simpa [resStep] using h2)]

theorem pike_opt_go_append (head : Val β) (xs ys : List (Stage β))
    (ret : Val β) :
    pike_opt_go head (xs ++ ys) ret = pike_opt_go head ys (pike_opt_go head xs ret) := by
  induction xs generalizing ret with
  | nil => rfl
  | cons s rest ih => simp [pike_opt_go, ih]

theorem pike_optT_go_append_stall (head : Val β) (xs ys : List (Stage β))
    (i : Nat) (ret : Val β) (h : pike_opt_go head xs ret ≠ Val.vnone) :
    pike_optT_go head (xs ++ ys) i ret = pike_optT_go head xs i ret := by
  induction xs generalizing i ret with
  | nil => exact pike_optT_go_stall head ys i ret h
  | cons s rest ih =>
      have h2 : pike_opt_go head rest (optStep head s ret) ≠ Val.vnone := h
      cases ret <;> simp [pike_optT_go, ih (i + 1) _ (by simpa [optStep] using h2)]

theorem matchStages_eq_none_iff (raws : List (RawStage β)) :
    matchStages raws = none ↔ RawStage.bad ∈ raws := by
  induction raws with
  | nil => simp [matchStages]
  | cons r rest ih =>
      cases r with
      | good s =>
          cases hm : matchStages rest with
          | none => simp [matchStages, hm, ih.mp hm]
          | some ss =>
              have : RawStage.bad ∉ rest := fun hb => by
                rw [ih.mpr hb] at hm; cases hm
              simp [matchStages, hm, this]
      | bad => simp [matchStages]

/-- C3: in `pike_opt!`, if every stage before `s` returns `None` on the
head value and `s` returns `Some v` on the head value, the pipeline
evaluates to `Some v`; its evaluation trace is exactly `0..pre.length`
(stages attempted left to right, stopping at `s`); and in general the
pipeline's value is the first non-`None` result among the stages applied
to the original head value. -/
theorem pike_opt_first_some (head v : Val β) (pre post : List (Stage β))
    (s : Stage β) (hpre : ∀ t ∈ pre, pikeFun t head = Val.vnone)
    (hs : pikeFun s head = Val.vsome v) :
    pike_opt head (pre ++ s :: post) = Val.vsome v ∧
      (pike_optT head (pre ++ s :: post)).2 = List.range (pre.length + 1) ∧
      ∀ stages : List (Stage β),
        pike_opt head stages
          = firstNonNone (stages.map (fun t => pikeFun t head)) := by
  have htr := pike_optT_go_first_some head v pre s post 0 hpre hs
  refine ⟨?_, ?_, fun stages => pike_opt_go_eq_firstNonNone head stages⟩
  · have hfst := pike_optT_go_fst head (pre ++ s :: post) 0 Val.vnone
    rw [htr] at hfst
    exact hfst.symm
  · rw [pike_optT, htr, List.range_eq_range']

/-- Witness for C3: the second stage is the first to return `Some`. -/
theorem pike_opt_first_some_witness :
    pike_opt (Val.base 7) ([Stage.closure (fun _ => Val.vnone)] ++
        Stage.closure Val.vsome :: [Stage.closure (fun _ => Val.vnone)])
      = Val.vsome (Val.base 7) ∧
      (pike_optT (Val.base (7 : Nat)) ([Stage.closure (fun _ => Val.vnone)] ++
        Stage.closure Val.vsome :: [Stage.closure (fun _ => Val.vnone)])).2
        = List.range 2 ∧
      ∀ stages : List (Stage Nat),
        pike_opt (Val.base 7) stages
          = firstNonNone (stages.map (fun t => pikeFun t (Val.base 7))) :=
  pike_opt_first_some (Val.base 7) (Val.base 7)
    [Stage.closure (fun _ => Val.vnone)] [Stage.closure (fun _ => Val.vnone)]
    (Stage.closure Val.vsome)
    (by intro t ht; rw [List.mem_singleton] at ht; subst ht; rfl) rfl

/-- C9: a `pike_opt!` pipeline evaluates to `None` exactly when every stage
returns `None` on the original head value. -/
theorem pike_opt_all_none_iff (head : Val β) (stages : List (Stage β)) :
    pike_opt head stages = Val.vnone ↔
      ∀ s ∈ stages, pikeFun s head = Val.vnone := by
  rw [show pike_opt head stages = pike_opt_go head stages Val.vnone from rfl,
    pike_opt_go_eq_firstNonNone, firstNonNone_eq_none_iff]
  simp

/-- Witness for C9: a one-stage all-`None` pipeline. -/
theorem pike_opt_all_none_iff_witness :
    pike_opt (Val.base (0 : Nat)) [Stage.closure (fun _ => Val.vnone)]
      = Val.vnone :=
  (pike_opt_all_none_iff (Val.base 0) [Stage.closure (fun _ => Val.vnone)]).mpr
    (by intro t ht; rw [List.mem_singleton] at ht; subst ht; rfl)

/-- C6: once a terminal outcome is reached no later stage is visited: if a
`pike_res!` pipeline over `preR` has reached `Err e`, appending further
stages changes neither the value nor the evaluation trace (no stage of
`postR` is evaluated), and likewise for `pike_opt!` once some stage has
returned `Some v`. -/
theorem short_circuit_no_revisit (headR e headO v : Val β)
    (preR postR preO postO : List (Stage β))
    (hR : pike_res headR preR = Val.err e)
    (hO : pike_opt headO preO = Val.vsome v) :
    (pike_res headR (preR ++ postR) = Val.err e ∧
      pike_resT headR (preR ++ postR) = pike_resT headR preR) ∧
      (pike_opt headO (preO ++ postO) = Val.vsome v ∧
        pike_optT headO (preO ++ postO) = pike_optT headO preO) := by
  have hRgo : pike_res_go preR (Val.ok headR) = Val.err e := hR
  have hOgo : pike_opt_go headO preO Val.vnone = Val.vsome v := hO
  refine ⟨⟨?_, ?_⟩, ?_, ?_⟩
  · show pike_res_go (preR ++ postR) (Val.ok headR) = Val.err e
    rw [pike_res_go_append, hRgo]
    exact pike_res_go_stall postR (Val.err e) (by intro x h; cases h)
  · exact pike_resT_go_append_stall preR postR 0 (Val.ok headR)
      (by intro x h; rw [hRgo] at h; cases h)
  · show pike_opt_go headO (preO ++ postO) Val.vnone = Val.vsome v
    rw [pike_opt_go_append, hOgo]
    exact pike_opt_go_stall headO postO (Val.vsome v) (by simp)
  · exact pike_optT_go_append_stall headO preO postO 0 Val.vnone
      (by rw [hOgo]; simp)

/-- Witness for C6: concrete short-circuiting pipelines with extra stages. -/
theorem short_circuit_no_revisit_witness :
    (pike_res (Val.base 5) ([Stage.closure Val.err] ++ [Stage.closure Val.ok])
        = Val.err (Val.base 5) ∧
      pike_resT (Val.base (5 : Nat))
          ([Stage.closure Val.err] ++ [Stage.closure Val.ok])
        = pike_resT (Val.base 5) [Stage.closure Val.err]) ∧
      (pike_opt (Val.base 3) ([Stage.closure Val.vsome] ++
          [Stage.closure (fun _ => Val.vnone)]) = Val.vsome (Val.base 3) ∧
        pike_optT (Val.base (3 : Nat)) ([Stage.closure Val.vsome] ++
            [Stage.closure (fun _ => Val.vnone)])
          = pike_optT (Val.base 3) [Stage.closure Val.vsome]) :=
  short_circuit_no_revisit (Val.base 5) (Val.base 5) (Val.base 3) (Val.base 3)
    [Stage.closure Val.err] [Stage.closure Val.ok]
    [Stage.closure Val.vsome] [Stage.closure (fun _ => Val.vnone)] rfl rfl

/-- C8: a pipeline with a head but no `|>` stage group, or with a stage
group matching none of the accepted stage forms, is rejected by the macro
matcher (models compile-time rejection, `pikeExpand = none`), and whenever
expansion succeeds the expanded pipeline evaluates to a value (no runtime
error is introduced). -/
theorem malformed_pipeline_rejected (raws : List (RawStage β)) (head : Val β) :
    (pikeExpand raws = none ↔ raws = [] ∨ RawStage.bad ∈ raws) ∧
      ∀ ss, pikeExpand raws = some ss → ∃ result, pike head ss = result := by
  refine ⟨?_, fun ss _ => ⟨pike head ss, rfl⟩⟩
  cases raws with
  | nil => simp [pikeExpand]
  | cons r rest =>
      rw [show pikeExpand (r :: rest) = matchStages (r :: rest) from rfl,
        matchStages_eq_none_iff]
      simp

/-- Witness for C8: the empty stage list is rejected. -/
theorem malformed_pipeline_rejected_witness :
    pikeExpand ([] : List (RawStage Nat)) = none :=
  (malformed_pipeline_rejected ([] : List (RawStage Nat)) (Val.base 0)).1.mpr
    (Or.inl rfl)

end PikeLib
